import Mathlib

/-!
Verification of the product-catalog core of `server.js` (storefront chatbot).

The development shallowly embeds the data model and the operations of the
source file: JavaScript `Map` objects become insertion-ordered association
lists, stateful asynchronous code becomes an explicit event/step semantics,
machine numbers become `Nat`, and fallible code returns `Option`/`Except`.
Every definition is translated from the source file; section comments cite
the JavaScript function each definition embeds.
-/

namespace Chatbot

/- ===================== generic JS string helpers =====================
   Core `String.map`/`String.trim` do not reduce in the kernel, so the
   JS string primitives are modelled on `List Char` (`String.data`).
   JS `toLowerCase` is modelled with ASCII `Char.toLower`; all strings the
   claims touch are ASCII.  JS string `.length` counts UTF-16 units; for
   ASCII it agrees with `String.length`. -/

def lowerChars (cs : List Char) : List Char := cs.map Char.toLower

/-- JS `String.prototype.toLowerCase` (ASCII model). -/
def jsLower (s : String) : String := String.mk (lowerChars s.data)

/-- JS `String.prototype.trim`. -/
def jsTrimList (cs : List Char) : List Char :=
  ((cs.dropWhile Char.isWhitespace).reverse.dropWhile Char.isWhitespace).reverse

def jsTrim (s : String) : String := String.mk (jsTrimList s.data)

/-- JS `hay.includes(needle)` on char lists. -/
def listContainsSub : List Char → List Char → Bool
  | [], needle => needle.isEmpty
  | c :: t, needle => needle.isPrefixOf (c :: t) || listContainsSub t needle

/-- JS `hay.includes(needle)`. -/
def jsIncludes (hay needle : String) : Bool := listContainsSub hay.data needle.data

/-- `Array.from(new Set(xs))`: deduplicate keeping first occurrences. -/
def dedupFirstGo [DecidableEq α] (seen : List α) : List α → List α
  | [] => []
  | h :: t => if h ∈ seen then dedupFirstGo seen t else h :: dedupFirstGo (h :: seen) t

def dedupFirst [DecidableEq α] (l : List α) : List α := dedupFirstGo [] l

/- ===================== cache model (`CACHE`, a JS `Map`) =====================
   A JS `Map` iterates in key-insertion order and `set` on an existing key
   keeps the key's position, so the cache is an insertion-ordered association
   list.  Values are abstract (`α`). -/

def mapKeys (m : List (String × α)) : List String := m.map Prod.fst

/-- JS `Map.prototype.get`. -/
def mapGet : List (String × α) → String → Option α
  | [], _ => none
  | (k', v) :: rest, k => if k = k' then some v else mapGet rest k

/-- JS `Map.prototype.has`. -/
def mapHas (m : List (String × α)) (k : String) : Bool := (mapGet m k).isSome

/-- JS `Map.prototype.set`: update in place if present, else append. -/
def mapSet : List (String × α) → String → α → List (String × α)
  | [], k, v => [(k, v)]
  | (k', v') :: rest, k, v =>
      if k = k' then (k', v) :: rest else (k', v') :: mapSet rest k v

/-- JS `Map.prototype.delete` (drops the unique occurrence of the key). -/
def mapDelete : List (String × α) → String → List (String × α)
  | [], _ => []
  | (k', v') :: rest, k => if k = k' then rest else (k', v') :: mapDelete rest k

/-- JS `CACHE.keys().next().value` — the oldest-inserted key. -/
def firstKey (m : List (String × α)) : Option String := (mapKeys m).head?

/-- `const CACHE_LIMIT = 1000`. -/
def CACHE_LIMIT : Nat := 1000

/-- First statement of `function cacheSetLimited(handle, prod)`:
    `if (CACHE.size >= CACHE_LIMIT) { const firstKey = ...; if (firstKey) CACHE.delete(firstKey); }`.
    The JS guard `if (firstKey)` skips the delete when the first key is the
    empty string (falsy) or the map is empty (`undefined`). -/
def evictIfFull (m : List (String × α)) : List (String × α) :=
  if CACHE_LIMIT ≤ m.length then
    match firstKey m with
    | some fk => if fk ≠ "" then mapDelete m fk else m
    | none => m
  else m

/-- `function cacheSetLimited(handle, prod)`: evict the oldest-inserted key
    when at capacity, then `CACHE.set(handle, prod)`. -/
def cacheSetLimited (m : List (String × α)) (handle : String) (prod : α) :
    List (String × α) :=
  mapSet (evictIfFull m) handle prod

/-- `async function ensureProductByHandle(handle)`; the network fetch is an
    oracle `fetchUltra`, and the third component counts how many underlying
    fetches the call performed (0 on a cache hit, 1 otherwise). -/
def ensureProductByHandle (fetchUltra : String → Option α)
    (cache : List (String × α)) (handle : String) :
    Option α × List (String × α) × Nat :=
  if mapHas cache handle then (mapGet cache handle, cache, 0)
  else
    match fetchUltra handle with
    | some prod => (some prod, cacheSetLimited cache handle prod, 1)
    | none => (none, cache, 1)

/-- `async function ingestHandleOnce(handle)`: ensure, throw (`none`) when no
    product, then unconditionally `cacheSetLimited(handle, prod)` again
    (`indexProduct` is a no-op in the source). -/
def ingestHandleOnce (fetchUltra : String → Option α)
    (cache : List (String × α)) (handle : String) :
    Option (List (String × α)) :=
  let r := ensureProductByHandle fetchUltra cache handle
  match r.1 with
  | none => none
  | some prod => some (cacheSetLimited r.2.1 handle prod)

/-- Insert a whole list of handles into an empty cache through
    `cacheSetLimited`, fetching the record for each handle with `f`. -/
def foldCache (f : String → α) (hs : List String) : List (String × α) :=
  hs.foldl (fun m h => cacheSetLimited m h (f h)) []

/- ===================== cache lemmas ===================== -/

theorem mapHas_iff (m : List (String × α)) (k : String) :
    mapHas m k = true ↔ k ∈ mapKeys m := by
  induction m with
  | nil => simp [mapHas, mapGet, mapKeys]
  | cons p rest ih =>
      obtain ⟨k', v⟩ := p
      by_cases hk : k = k'
      · subst hk; simp [mapHas, mapGet, mapKeys]
      · simp only [mapHas, mapGet, if_neg hk, mapKeys, List.map_cons, List.mem_cons]
        rw [← mapKeys, ← mapHas]
        simp [ih, hk]

theorem mapHas_eq_false_iff (m : List (String × α)) (k : String) :
    mapHas m k = false ↔ k ∉ mapKeys m := by
  rw [← mapHas_iff m k]
  cases mapHas m k <;> simp

theorem mapGet_mapSet_self (m : List (String × α)) (k : String) (v : α) :
    mapGet (mapSet m k v) k = some v := by
  induction m with
  | nil => simp [mapSet, mapGet]
  | cons p rest ih =>
      obtain ⟨k', v'⟩ := p
      by_cases hk : k = k'
      · subst hk; simp [mapSet, mapGet]
      · simp [mapSet, mapGet, if_neg hk, ih]

theorem mapGet_mapSet_ne (m : List (String × α)) (k k' : String) (v : α)
    (h : k' ≠ k) : mapGet (mapSet m k v) k' = mapGet m k' := by
  induction m with
  | nil => simp [mapSet, mapGet, if_neg h]
  | cons p rest ih =>
      obtain ⟨k₀, v₀⟩ := p
      by_cases hk : k = k₀
      · subst hk
        simp [mapSet, mapGet, if_neg h]
      · by_cases hk' : k' = k₀
        · subst hk'; simp [mapSet, mapGet, if_neg hk]
        · simp [mapSet, mapGet, if_neg hk, if_neg hk', ih]

theorem mapSet_of_not_mem (m : List (String × α)) (k : String) (v : α)
    (h : k ∉ mapKeys m) : mapSet m k v = m ++ [(k, v)] := by
  induction m with
  | nil => simp [mapSet]
  | cons p rest ih =>
      obtain ⟨k', v'⟩ := p
      simp only [mapKeys, List.map_cons, List.mem_cons] at h
      push_neg at h
      simp only [mapSet, if_neg h.1, List.cons_append, List.cons.injEq, true_and]
      exact ih h.2

theorem mapKeys_mapSet_of_mem (m : List (String × α)) (k : String) (v : α)
    (h : k ∈ mapKeys m) : mapKeys (mapSet m k v) = mapKeys m := by
  induction m with
  | nil => simp [mapKeys] at h
  | cons p rest ih =>
      obtain ⟨k', v'⟩ := p
      by_cases hk : k = k'
      · subst hk; simp [mapSet, mapKeys]
      · simp only [mapKeys, List.map_cons, List.mem_cons] at h
        rcases h with h | h
        · exact absurd h hk
        · simp only [mapSet, if_neg hk, mapKeys, List.map_cons, List.cons.injEq, true_and]
          exact ih h

theorem length_mapSet_of_mem (m : List (String × α)) (k : String) (v : α)
    (h : k ∈ mapKeys m) : (mapSet m k v).length = m.length := by
  have h1 := congrArg List.length (mapKeys_mapSet_of_mem m k v h)
  simpa [mapKeys] using h1

theorem foldCache_append (f : String → α) (hs : List String) (h : String) :
    foldCache f (hs ++ [h]) = cacheSetLimited (foldCache f hs) h (f h) := by
  simp [foldCache, List.foldl_append]

theorem mapKeys_map_pair (f : String → α) (l : List String) :
    mapKeys (l.map (fun h => (h, f h))) = l := by
  induction l with
  | nil => rfl
  | cons x xs ih =>
      simp only [mapKeys, List.map_cons] at ih ⊢
      rw [ih]

theorem evictIfFull_of_lt (m : List (String × α)) (h : m.length < CACHE_LIMIT) :
    evictIfFull m = m := by
  simp only [evictIfFull, if_neg (by omega : ¬ CACHE_LIMIT ≤ m.length)]

theorem evictIfFull_cons_full (k0 : String) (v0 : α) (rest : List (String × α))
    (hlen : CACHE_LIMIT ≤ ((k0, v0) :: rest).length) (hk0 : k0 ≠ "") :
    evictIfFull ((k0, v0) :: rest) = rest := by
  simp only [evictIfFull, if_pos hlen, firstKey, mapKeys, List.map_cons, List.head?_cons,
    if_pos hk0]
  show (if k0 = k0 then rest else _) = rest
  simp

/-- FIFO window characterization: inserting a list of distinct, nonempty
    handles into the empty cache leaves exactly the most recently inserted
    `CACHE_LIMIT` handles, in insertion order. -/
theorem foldCache_eq_window (f : String → α) (hs : List String)
    (hne : ∀ h ∈ hs, h ≠ "") (hnd : hs.Nodup) :
    foldCache f hs =
      (hs.drop (hs.length - CACHE_LIMIT)).map (fun h => (h, f h)) := by
  induction hs using List.reverseRecOn with
  | nil => simp [foldCache]
  | append_singleton hs h ih =>
      have hne' : ∀ x ∈ hs, x ≠ "" := fun x hx => hne x (by simp [hx])
      have hnd' : hs.Nodup := hnd.sublist (by simp)
      have hnotin : h ∉ hs := by
        have := List.nodup_append.mp hnd
        intro hcon
        exact this.2.2 hcon (by simp)
      rw [foldCache_append, ih hne' hnd']
      set n := hs.length with hn
      set c := CACHE_LIMIT with hc
      have hcpos : 0 < c := by rw [hc]; simp [CACHE_LIMIT]
      by_cases hlt : n < c
      · have hz : n - c = 0 := by omega
        have hz' : n + 1 - c = 0 := by omega
        rw [cacheSetLimited,
          evictIfFull_of_lt _ (by simp only [List.length_map, List.length_drop]; omega)]
        have hnomem : h ∉ mapKeys ((hs.drop (n - c)).map (fun h => (h, f h))) := by
          rw [mapKeys_map_pair, hz]
          simpa using hnotin
        rw [mapSet_of_not_mem _ _ _ hnomem]
        simp [hz, hz']
      · have hge : c ≤ n := by omega
        have hdts : hs.drop (n - c) ≠ [] := by
          intro hcon
          have := congrArg List.length hcon
          simp only [List.length_drop, List.length_nil] at this
          omega
        obtain ⟨hd, tl, hdd⟩ := List.exists_cons_of_ne_nil hdts
        have hhd_mem : hd ∈ hs := by
          have : hd ∈ hs.drop (n - c) := by rw [hdd]; simp
          exact ((List.drop_sublist _ _).subset) this
        have hhd_ne : hd ≠ "" := hne' hd hhd_mem
        have htl_sub : ∀ x ∈ tl, x ∈ hs := by
          intro x hx
          have : x ∈ hs.drop (n - c) := by rw [hdd]; simp [hx]
          exact ((List.drop_sublist _ _).subset) this
        have hlen2 : c ≤ (((hd, f hd) :: tl.map (fun h => (h, f h))).length) := by
          have := congrArg List.length hdd
          simp only [List.length_drop, List.length_cons, List.length_map] at this
          simp only [List.length_cons, List.length_map]
          omega
        rw [hdd, cacheSetLimited]
        simp only [List.map_cons]
        rw [evictIfFull_cons_full hd (f hd) _ hlen2 hhd_ne]
        have hnomem : h ∉ mapKeys (tl.map (fun h => (h, f h))) := by
          rw [mapKeys_map_pair]
          intro hcon
          exact hnotin (htl_sub h hcon)
        rw [mapSet_of_not_mem _ _ _ hnomem]
        have harith : n + 1 - c = (n - c) + 1 := by omega
        have hdrop : (hs ++ [h]).drop (n + 1 - c) = hs.drop ((n - c) + 1) ++ [h] := by
          rw [harith]
          exact List.drop_append_of_le_length (by omega)
        have htl : hs.drop ((n - c) + 1) = tl := by
          have h1 := congrArg List.tail hdd
          rw [List.tail_drop] at h1
          simpa using h1
        have hlen3 : (hs ++ [h]).length = n + 1 := by
          simp [hn]
        rw [hlen3, hdrop, htl]
        simp

/- ===================== witness-support data ===================== -/

/-- Distinct nonempty handles: `handleOfLen i` is the string of `i + 1` letters a. -/
def handleOfLen (i : Nat) : String := String.mk (List.replicate (i + 1) 'a')

/-- `CACHE_LIMIT + 1` distinct nonempty handles. -/
def manyHandles : List String := (List.range (CACHE_LIMIT + 1)).map handleOfLen

/-- A cache filled to exactly `CACHE_LIMIT` entries. -/
def fullMap : List (String × Nat) := (List.range CACHE_LIMIT).map (fun i => (handleOfLen i, 0))

theorem handleOfLen_injective : Function.Injective handleOfLen := by
  intro a b h
  have h2 := congrArg String.data h
  simp only [handleOfLen] at h2
  have h3 := congrArg List.length h2
  simpa using h3

theorem handleOfLen_ne_empty (i : Nat) : handleOfLen i ≠ "" := by
  intro hc
  have h2 := congrArg String.data hc
  simp [handleOfLen] at h2

theorem manyHandles_nodup : manyHandles.Nodup :=
  List.Nodup.map handleOfLen_injective (List.nodup_range _)

theorem manyHandles_ne_empty : ∀ h ∈ manyHandles, h ≠ "" := by
  intro h hm
  simp only [manyHandles, List.mem_map] at hm
  obtain ⟨i, _, rfl⟩ := hm
  exact handleOfLen_ne_empty i

theorem fullMap_keys : mapKeys fullMap = (List.range CACHE_LIMIT).map handleOfLen := by
  rw [fullMap, mapKeys, List.map_map]
  rfl

theorem fullMap_len : fullMap.length = CACHE_LIMIT := by
  simp [fullMap]

theorem fullMap_keys_nodup : (mapKeys fullMap).Nodup := by
  rw [fullMap_keys]
  exact List.Nodup.map handleOfLen_injective (List.nodup_range _)

theorem fullMap_firstKey : firstKey fullMap = some (handleOfLen 0) := by
  have hsplit : CACHE_LIMIT = 999 + 1 := rfl
  rw [firstKey, fullMap_keys, hsplit, List.range_succ_eq_map]
  rfl

theorem fullMap_has_5 : mapHas fullMap (handleOfLen 5) = true := by
  apply (mapHas_iff _ _).mpr
  rw [fullMap_keys]
  exact List.mem_map.mpr ⟨5, by simp [CACHE_LIMIT], rfl⟩

/- ===================== claim C5 ===================== -/

/-- C5: starting from the empty cache and inserting any sequence of distinct
    nonempty handles through `cacheSetLimited`, the cache never holds more
    than `CACHE_LIMIT` (1000) entries at any point of the sequence, and the
    final contents are exactly the most recently inserted `CACHE_LIMIT`
    handles in insertion order — so each over-capacity insertion evicted
    precisely the oldest-inserted handle (FIFO, not access recency). -/
theorem cache_bound_and_fifo_eviction (f : String → α) (hs : List String)
    (hne : ∀ h ∈ hs, h ≠ "") (hnd : hs.Nodup) :
    (∀ n, (foldCache f (hs.take n)).length ≤ CACHE_LIMIT) ∧
    foldCache f hs = (hs.drop (hs.length - CACHE_LIMIT)).map (fun h => (h, f h)) := by
  constructor
  · intro n
    have hne2 : ∀ h ∈ hs.take n, h ≠ "" :=
      fun h hm => hne h ((List.take_sublist n hs).subset hm)
    have hnd2 : (hs.take n).Nodup := hnd.sublist (List.take_sublist n hs)
    rw [foldCache_eq_window f _ hne2 hnd2]
    simp only [List.length_map, List.length_drop]
    omega
  · exact foldCache_eq_window f hs hne hnd

/-- C5 witness: 1001 distinct nonempty handles inserted into an empty cache
    of capacity 1000. -/
theorem cache_bound_and_fifo_eviction_witness :
    ((∀ h ∈ manyHandles, h ≠ "") ∧ manyHandles.Nodup) ∧
    ((∀ n, (foldCache (fun _ => (0 : Nat)) (manyHandles.take n)).length ≤ CACHE_LIMIT) ∧
      foldCache (fun _ => (0 : Nat)) manyHandles =
        (manyHandles.drop (manyHandles.length - CACHE_LIMIT)).map (fun h => (h, 0))) :=
  ⟨⟨manyHandles_ne_empty, manyHandles_nodup⟩,
    cache_bound_and_fifo_eviction (fun _ => (0 : Nat)) manyHandles
      manyHandles_ne_empty manyHandles_nodup⟩

/- ===================== claim C10 ===================== -/

/-- C10: when the cache holds at least `CACHE_LIMIT` entries, a
    `cacheSetLimited` write deletes the oldest-inserted key `k0` before
    setting, even when the written handle `h` is already present: the oldest
    key disappears, `h` gets the new value, the cache shrinks by one entry,
    all other entries are untouched, and a bulk re-ingest of a cached handle
    (`ingestHandleOnce`) performs exactly such a write with the cached record. -/
theorem cacheSetLimited_at_capacity_overwrite (m : List (String × α)) (h : String) (v : α)
    (hlen : CACHE_LIMIT ≤ m.length) (hnd : (mapKeys m).Nodup)
    (k0 : String) (hk0 : firstKey m = some k0) (hk0ne : k0 ≠ "") (hneq : h ≠ k0)
    (hhas : mapHas m h = true) :
    k0 ∉ mapKeys (cacheSetLimited m h v) ∧
    mapGet (cacheSetLimited m h v) h = some v ∧
    (cacheSetLimited m h v).length + 1 = m.length ∧
    (∀ k, k ≠ k0 → k ≠ h → mapGet (cacheSetLimited m h v) k = mapGet m k) ∧
    (∀ f : String → Option α, ingestHandleOnce (fun x => f x) m h
        = (mapGet m h).map (fun p => cacheSetLimited m h p)) := by
  cases m with
  | nil => simp [firstKey, mapKeys] at hk0
  | cons p rest =>
      obtain ⟨k0', v0⟩ := p
      have hk0' : k0' = k0 := by
        simpa [firstKey, mapKeys] using hk0
      subst hk0'
      have hevict : evictIfFull ((k0', v0) :: rest) = rest :=
        evictIfFull_cons_full k0' v0 rest hlen hk0ne
      have hcsl : cacheSetLimited ((k0', v0) :: rest) h v = mapSet rest h v := by
        rw [cacheSetLimited, hevict]
      have hmem : h ∈ mapKeys ((k0', v0) :: rest) := (mapHas_iff _ _).mp hhas
      have hmem_rest : h ∈ mapKeys rest := by
        simp only [mapKeys, List.map_cons, List.mem_cons] at hmem
        rcases hmem with hmem | hmem
        · exact absurd hmem hneq
        · exact hmem
      have hk0_not : k0' ∉ mapKeys rest := by
        simp only [mapKeys, List.map_cons] at hnd
        exact (List.nodup_cons.mp hnd).1
      refine ⟨?_, ?_, ?_, ?_, ?_⟩
      · rw [hcsl, mapKeys_mapSet_of_mem _ _ _ hmem_rest]
        exact hk0_not
      · rw [hcsl]
        exact mapGet_mapSet_self _ _ _
      · rw [hcsl, length_mapSet_of_mem _ _ _ hmem_rest]
        simp
      · intro k hk1 hk2
        rw [hcsl, mapGet_mapSet_ne _ _ _ _ hk2]
        simp [mapGet, if_neg hk1]
      · intro f
        obtain ⟨q, hq⟩ := Option.isSome_iff_exists.mp hhas
        simp only [ingestHandleOnce, ensureProductByHandle, if_pos hhas, hq, Option.map_some']

/-- C10 witness: a full 1000-entry cache, overwriting the already-present
    sixth-oldest handle. -/
theorem cacheSetLimited_at_capacity_overwrite_witness :
    (CACHE_LIMIT ≤ fullMap.length ∧ (mapKeys fullMap).Nodup ∧
      firstKey fullMap = some (handleOfLen 0) ∧ handleOfLen 0 ≠ "" ∧
      handleOfLen 5 ≠ handleOfLen 0 ∧ mapHas fullMap (handleOfLen 5) = true) ∧
    (handleOfLen 0 ∉ mapKeys (cacheSetLimited fullMap (handleOfLen 5) 7) ∧
      mapGet (cacheSetLimited fullMap (handleOfLen 5) 7) (handleOfLen 5) = some 7 ∧
      (cacheSetLimited fullMap (handleOfLen 5) 7).length + 1 = fullMap.length ∧
      (∀ k, k ≠ handleOfLen 0 → k ≠ handleOfLen 5 →
        mapGet (cacheSetLimited fullMap (handleOfLen 5) 7) k = mapGet fullMap k) ∧
      (∀ f : String → Option Nat, ingestHandleOnce (fun x => f x) fullMap (handleOfLen 5)
          = (mapGet fullMap (handleOfLen 5)).map
              (fun p => cacheSetLimited fullMap (handleOfLen 5) p))) := by
  have h1 : CACHE_LIMIT ≤ fullMap.length := by rw [fullMap_len]
  have h4 : handleOfLen 0 ≠ "" := handleOfLen_ne_empty 0
  have h5 : handleOfLen 5 ≠ handleOfLen 0 := by
    intro hc
    exact absurd (handleOfLen_injective hc) (by decide)
  exact ⟨⟨h1, fullMap_keys_nodup, fullMap_firstKey, h4, h5, fullMap_has_5⟩,
    cacheSetLimited_at_capacity_overwrite fullMap (handleOfLen 5) 7 h1 fullMap_keys_nodup
      (handleOfLen 0) fullMap_firstKey h4 h5 fullMap_has_5⟩

/- ===================== claim C6 ===================== -/

/-- C6 (amended): for a handle whose fetch yields a product record, resolving
    it twice through `ensureProductByHandle` returns the identical record
    both times, performs at most one underlying fetch in total, and the
    second resolution is a pure cache read (zero fetches, cache unchanged). -/
theorem ensureProductByHandle_idempotent (f : String → Option α)
    (cache : List (String × α)) (h : String) (p : α) (hf : f h = some p) :
    (ensureProductByHandle f cache h).1
        = (ensureProductByHandle f (ensureProductByHandle f cache h).2.1 h).1 ∧
    (ensureProductByHandle f cache h).1.isSome = true ∧
    (ensureProductByHandle f (ensureProductByHandle f cache h).2.1 h).2.2 = 0 ∧
    (ensureProductByHandle f cache h).2.2
        + (ensureProductByHandle f (ensureProductByHandle f cache h).2.1 h).2.2 ≤ 1 ∧
    (ensureProductByHandle f (ensureProductByHandle f cache h).2.1 h).2.1
        = (ensureProductByHandle f cache h).2.1 := by
  by_cases hh : mapHas cache h = true
  · have hstep1 : ensureProductByHandle f cache h = (mapGet cache h, cache, 0) := by
      simp only [ensureProductByHandle, hh, if_true]
    have h21 : (ensureProductByHandle f cache h).2.1 = cache := by rw [hstep1]
    have hstep2 : ensureProductByHandle f (ensureProductByHandle f cache h).2.1 h
        = (mapGet cache h, cache, 0) := by
      rw [h21, hstep1]
    rw [hstep2, hstep1]
    exact ⟨rfl, hh, rfl, by simp, rfl⟩
  · have hh' : mapHas cache h = false := by
      cases hcase : mapHas cache h
      · rfl
      · exact absurd hcase hh
    have hstep1 : ensureProductByHandle f cache h
        = (some p, cacheSetLimited cache h p, 1) := by
      simp [ensureProductByHandle, hh', hf]
    have hhas2 : mapHas (cacheSetLimited cache h p) h = true := by
      rw [mapHas, cacheSetLimited, mapGet_mapSet_self]
      rfl
    have hget2 : mapGet (cacheSetLimited cache h p) h = some p := by
      rw [cacheSetLimited]
      exact mapGet_mapSet_self _ _ _
    have h21 : (ensureProductByHandle f cache h).2.1 = cacheSetLimited cache h p := by
      rw [hstep1]
    have hstep2 : ensureProductByHandle f (ensureProductByHandle f cache h).2.1 h
        = (mapGet (cacheSetLimited cache h p) h, cacheSetLimited cache h p, 0) := by
      rw [h21]
      simp only [ensureProductByHandle, hhas2, if_true]
    rw [hstep2, hstep1, hget2]
    exact ⟨rfl, rfl, rfl, by simp, rfl⟩

/-- C6 witness: an empty cache and a fetch oracle that resolves handle x. -/
theorem ensureProductByHandle_idempotent_witness :
    ((fun _ : String => some (42 : Nat)) "x" = some 42) ∧
    ((ensureProductByHandle (fun _ => some (42 : Nat)) [] "x").1
        = (ensureProductByHandle (fun _ => some (42 : Nat))
            (ensureProductByHandle (fun _ => some (42 : Nat)) [] "x").2.1 "x").1 ∧
      (ensureProductByHandle (fun _ => some (42 : Nat)) [] "x").1.isSome = true ∧
      (ensureProductByHandle (fun _ => some (42 : Nat))
          (ensureProductByHandle (fun _ => some (42 : Nat)) [] "x").2.1 "x").2.2 = 0 ∧
      (ensureProductByHandle (fun _ => some (42 : Nat)) [] "x").2.2
          + (ensureProductByHandle (fun _ => some (42 : Nat))
              (ensureProductByHandle (fun _ => some (42 : Nat)) [] "x").2.1 "x").2.2 ≤ 1 ∧
      (ensureProductByHandle (fun _ => some (42 : Nat))
          (ensureProductByHandle (fun _ => some (42 : Nat)) [] "x").2.1 "x").2.1
          = (ensureProductByHandle (fun _ => some (42 : Nat)) [] "x").2.1) :=
  ⟨rfl, ensureProductByHandle_idempotent (fun _ => some (42 : Nat)) [] "x" 42 rfl⟩

/-- C6 counterexample: for a handle that resolves to no product, the fetch is
    repeated on the second resolution — two underlying fetches in total, so
    the claim "only one underlying network fetch for every handle" is false. -/
theorem ensureProductByHandle_not_idempotent_on_miss :
    (ensureProductByHandle (fun _ => (none : Option Nat)) [] "x").2.2
        + (ensureProductByHandle (fun _ => (none : Option Nat))
            (ensureProductByHandle (fun _ => (none : Option Nat)) [] "x").2.1 "x").2.2 = 2 ∧
    ¬ ((ensureProductByHandle (fun _ => (none : Option Nat)) [] "x").2.2
        + (ensureProductByHandle (fun _ => (none : Option Nat))
            (ensureProductByHandle (fun _ => (none : Option Nat)) [] "x").2.1 "x").2.2 ≤ 1) := by
  constructor
  · rfl
  · decide

/- ===================== CSS-noise filter (`isLikelyCssPair`) =====================
   The three regexes of the source are modelled as executable scanners over
   `List Char`.  JS `\w` is `[A-Za-z0-9_]`; `/i` is modelled by lowercasing
   the scanned text first. -/

/-- A mined key/value specification candidate (`{ key, value }`). -/
structure KV where
  key : String
  value : String
deriving DecidableEq, Repr

/-- JS `\w` word character. -/
def isWordChar (c : Char) : Bool := c.isAlphanum || c = '_'

/-- Unit alternatives of `MEASURE_RX`: `in(?:ches)?|cm|mm|ft|feet`
    (both backtracking branches of `in(?:ches)?` listed). -/
def measureUnits : List (List Char) :=
  [['i', 'n', 'c', 'h', 'e', 's'], ['i', 'n'], ['c', 'm'], ['m', 'm'],
   ['f', 't'], ['f', 'e', 'e', 't']]

/-- Unit alternatives of `CSS_VALUE_RX`: `px|%|vw|vh|rem|em`. -/
def cssUnits : List (List Char) :=
  [['p', 'x'], ['%'], ['v', 'w'], ['v', 'h'], ['r', 'e', 'm'], ['e', 'm']]

/-- Does some unit alternative match a prefix of `cs`, followed by a regex
    word boundary `\b` (sides differ in word-character-ness)? -/
def unitWithBoundary (units : List (List Char)) (cs : List Char) : Bool :=
  units.any fun u =>
    u.isPrefixOf cs &&
      ((match u.getLast? with
        | some c => isWordChar c
        | none => false)
        != (match cs.drop u.length with
        | [] => false
        | c :: _ => isWordChar c))

/-- Match `\d+(\.\d+)?` then (for `MEASURE_RX`) `\s*` then a unit with a
    closing `\b`, at the start of `cs`. -/
def numThenUnit (units : List (List Char)) (allowSpaces : Bool) (cs : List Char) : Bool :=
  let ds := cs.takeWhile Char.isDigit
  if ds.isEmpty then false
  else
    let rest1 := cs.drop ds.length
    let rest2 :=
      match rest1 with
      | '.' :: r =>
          let fs := r.takeWhile Char.isDigit
          if fs.isEmpty then rest1 else r.drop fs.length
      | _ => rest1
    let rest3 := if allowSpaces then rest2.dropWhile Char.isWhitespace else rest2
    unitWithBoundary units rest3

/-- Scan every position whose left context is a `\b` before a digit. -/
def scanNumUnit (units : List (List Char)) (allowSpaces : Bool) :
    List Char → Bool → Bool
  | [], _ => false
  | c :: rest, prevW =>
      (c.isDigit && !prevW && numThenUnit units allowSpaces (c :: rest))
        || scanNumUnit units allowSpaces rest (isWordChar c)

/-- `MEASURE_RX.test`: a numeral followed by a physical unit, or a curly
    double quote (the `[“”]` character class of the source). -/
def reMeasureTest (s : String) : Bool :=
  scanNumUnit measureUnits true (lowerChars s.data) false
    || s.data.any (fun c => c = '“' || c = '”')

/-- `CSS_VALUE_RX.test`: a numeral with a CSS unit, or `calc(`,
    `!important`, or a leading `var(`. -/
def reCssValueTest (s : String) : Bool :=
  scanNumUnit cssUnits false (lowerChars s.data) false
    || listContainsSub (lowerChars s.data) ['c', 'a', 'l', 'c', '(']
    || listContainsSub (lowerChars s.data)
        ['!', 'i', 'm', 'p', 'o', 'r', 't', 'a', 'n', 't']
    || (['v', 'a', 'r', '('].isPrefixOf (lowerChars s.data))

/-- The anchored alternatives of `CSS_PROP_RX` (a full-string,
    case-insensitive match against literal property names). -/
def cssPropNames : List String :=
  ["width", "height", "max-", "min-", "margin", "padding", "left", "right",
   "top", "bottom", "display", "position", "z-index", "background", "color",
   "font", "line-height", "letter-spacing", "border", "box-shadow", "opacity",
   "transform", "transition", "animation", "overflow", "grid", "flex", "align",
   "justify", "gap", "object-fit", "text", "white-space", "word", "clip",
   "visibility"]

/-- `CSS_PROP_RX.test`. -/
def reCssPropTest (s : String) : Bool := cssPropNames.contains (jsLower s)

/-- `function isLikelyCssPair(kv)`: measurement values are exempt first;
    then styling-like keys, `width`/`height` keys with CSS values, and CSS
    value shapes are rejected. -/
def isLikelyCssPair (kv : KV) : Bool :=
  if reMeasureTest (jsTrim kv.value) then false
  else if reCssPropTest (jsTrim kv.key) then true
  else if (jsLower (jsTrim kv.key) == "width" || jsLower (jsTrim kv.key) == "height")
      && reCssValueTest (jsTrim kv.value) then true
  else if reCssValueTest (jsTrim kv.value) then true
  else false

/-- `function filterOutCssPairs(arr)`. -/
def filterOutCssPairs (arr : List KV) : List KV :=
  arr.filter (fun kv => !isLikelyCssPair kv)

/- ===================== claim C7 ===================== -/

/-- C7: the CSS-noise filter rejects `{margin, 12px}` and keeps
    `{width, 24 in}` despite the styling-like key, and in general any value
    matching the physical-measurement shape exempts the pair from CSS
    rejection (the `MEASURE_RX` test runs first and short-circuits). -/
theorem isLikelyCssPair_css_noise_filter :
    isLikelyCssPair ⟨"margin", "12px"⟩ = true ∧
    isLikelyCssPair ⟨"width", "24 in"⟩ = false ∧
    (∀ k v : String, reMeasureTest (jsTrim v) = true → isLikelyCssPair ⟨k, v⟩ = false) := by
  refine ⟨by decide, by decide, ?_⟩
  intro k v hm
  simp [isLikelyCssPair, hm]

/-- C7 witness: the styling-like key `margin` with the measurement value
    `24 in` is exempted by the measurement shape. -/
theorem isLikelyCssPair_css_noise_filter_witness :
    reMeasureTest (jsTrim "24 in") = true ∧ isLikelyCssPair ⟨"margin", "24 in"⟩ = false :=
  ⟨by decide, isLikelyCssPair_css_noise_filter.2.2 "margin" "24 in" (by decide)⟩

/- ===================== spec dedup (`dedupeKV`) ===================== -/

/-- The signature `${kv.key}=${kv.value}`.toLowerCase() used by `dedupeKV`. -/
def sigOf (kv : KV) : String := jsLower (kv.key ++ "=" ++ kv.value)

/-- The loop of `dedupeKV` with its `seen` signature set. Entries with a
    falsy (empty) key or value are skipped; the first occurrence of each
    signature is kept. -/
def dedupeKVGo (seen : List String) : List KV → List KV
  | [] => []
  | kv :: rest =>
      if kv.key = "" ∨ kv.value = "" then dedupeKVGo seen rest
      else if sigOf kv ∈ seen then dedupeKVGo seen rest
      else kv :: dedupeKVGo (sigOf kv :: seen) rest

/-- `const dedupeKV = (arr) => ...`. -/
def dedupeKV (arr : List KV) : List KV := dedupeKVGo [] arr

theorem dedupeKVGo_sound (l : List KV) : ∀ seen : List String,
    (∀ kv ∈ dedupeKVGo seen l, kv.key ≠ "" ∧ kv.value ≠ "" ∧ sigOf kv ∉ seen) ∧
    (dedupeKVGo seen l).Pairwise (fun a b => sigOf a ≠ sigOf b) := by
  induction l with
  | nil =>
      intro seen
      simp [dedupeKVGo]
  | cons kv rest ih =>
      intro seen
      by_cases h1 : kv.key = "" ∨ kv.value = ""
      · simp only [dedupeKVGo, if_pos h1]
        exact ih seen
      · by_cases h2 : sigOf kv ∈ seen
        · simp only [dedupeKVGo, if_neg h1, if_pos h2]
          exact ih seen
        · simp only [dedupeKVGo, if_neg h1, if_neg h2]
          obtain ⟨ihm, ihp⟩ := ih (sigOf kv :: seen)
          push_neg at h1
          constructor
          · intro x hx
            rcases List.mem_cons.mp hx with rfl | hx'
            · exact ⟨h1.1, h1.2, h2⟩
            · obtain ⟨hk, hv, hs⟩ := ihm x hx'
              exact ⟨hk, hv, fun hc => hs (List.mem_cons_of_mem _ hc)⟩
          · refine List.Pairwise.cons ?_ ihp
            intro x hx
            obtain ⟨_, _, hs⟩ := ihm x hx
            intro hc
            rw [hc] at hs
            exact hs (List.mem_cons_self _ _)

theorem sigOf_eq_of_casefold (a b : KV)
    (h1 : jsLower a.key = jsLower b.key) (h2 : jsLower a.value = jsLower b.value) :
    sigOf a = sigOf b := by
  have e1 : lowerChars a.key.data = lowerChars b.key.data := by
    have h := congrArg String.data h1
    simpa [jsLower] using h
  have e2 : lowerChars a.value.data = lowerChars b.value.data := by
    have h := congrArg String.data h2
    simpa [jsLower] using h
  show String.mk (lowerChars (a.key ++ "=" ++ a.value).data)
      = String.mk (lowerChars (b.key ++ "=" ++ b.value).data)
  congr 1
  simp only [String.data_append, lowerChars, List.map_append] at e1 e2 ⊢
  rw [e1, e2]

/- ===================== claim C8 ===================== -/

/-- C8: the finalized specifications list (`filterOutCssPairs(dedupeKV(...))`)
    never contains an entry with an empty key or value, nor two entries whose
    (key, value) pairs coincide after case folding; the candidates
    `{Capacity, 2 Person}` and `{capacity, 2 person}` collapse to the first
    occurrence. -/
theorem specifications_casefold_dedup :
    (∀ arr : List KV,
      (∀ kv ∈ filterOutCssPairs (dedupeKV arr), kv.key ≠ "" ∧ kv.value ≠ "") ∧
      (filterOutCssPairs (dedupeKV arr)).Pairwise
        (fun a b => ¬ (jsLower a.key = jsLower b.key ∧ jsLower a.value = jsLower b.value))) ∧
    filterOutCssPairs (dedupeKV [⟨"Capacity", "2 Person"⟩, ⟨"capacity", "2 person"⟩])
      = [⟨"Capacity", "2 Person"⟩] := by
  constructor
  · intro arr
    obtain ⟨hm, hp⟩ := dedupeKVGo_sound arr []
    constructor
    · intro kv hkv
      obtain ⟨hk, hv, _⟩ := hm kv (List.mem_of_mem_filter hkv)
      exact ⟨hk, hv⟩
    · have hp' : (dedupeKV arr).Pairwise
          (fun a b => ¬ (jsLower a.key = jsLower b.key ∧ jsLower a.value = jsLower b.value)) :=
        hp.imp (fun hne hc => hne (sigOf_eq_of_casefold _ _ hc.1 hc.2))
      exact List.Pairwise.sublist (List.filter_sublist _) hp'
  · decide

/- ===================== single-product fetch (`fetchProductUltra`) =====================
   The two network calls are abstracted as outcomes.  The page fetch
   (`await fetch(base)`) has no surrounding try/catch, so a rejected fetch
   propagates out of the function; a non-ok response returns null.  The
   variant-feed fetch is wrapped in `try { ... } catch {}`: any failure
   (rejection or unparsable body) leaves `js = null`.  HTML extraction
   itself is outside the error-handling claim and is abstracted to the
   page title. -/

inductive FetchOutcome (α : Type) where
  | ok (value : α)
  | httpError
  | networkError
deriving DecidableEq

/-- One entry of the Shopify `.js` variant feed. -/
structure RawVariant where
  id : Nat
  vtitle : String
  sku : Option String
  barcode : Option String
  available : Bool
  price : Nat
  compare_at_price : Option Nat
  option1 : Option String
  option2 : Option String
  option3 : Option String
  weight : Nat
  weight_unit : String
deriving DecidableEq, Repr

/-- The mapped variant object built by `fetchProductUltra`. -/
structure Variant where
  id : Nat
  vtitle : String
  sku : Option String
  barcode : Option String
  available : Bool
  price_cents : Nat
  compare_at_price_cents : Nat
  option1 : Option String
  option2 : Option String
  option3 : Option String
  weight : Nat
  weight_unit : String
deriving DecidableEq, Repr

/-- JS `x || null` on an optional string: the empty string is falsy. -/
def jsOrNullStr (o : Option String) : Option String :=
  match o with
  | some s => if s = "" then none else some s
  | none => none

/-- The `(js?.variants || []).map((v) => ({...}))` element conversion. -/
def toVariant (v : RawVariant) : Variant :=
  { id := v.id, vtitle := v.vtitle, sku := jsOrNullStr v.sku,
    barcode := jsOrNullStr v.barcode, available := v.available,
    price_cents := v.price, compare_at_price_cents := v.compare_at_price.getD 0,
    option1 := v.option1, option2 := v.option2, option3 := v.option3,
    weight := v.weight, weight_unit := v.weight_unit }

/-- Parsed body of the `.js` variant feed. -/
structure FeedData where
  vendor : Option String
  variants : List RawVariant
deriving DecidableEq

/-- Abstraction of the fetched product page HTML. -/
structure PageData where
  title : String
deriving DecidableEq

/-- `Math.min(...variants.map((v) => v.price_cents))`, absent for an empty
    variant list. -/
def priceFromCents (vs : List Variant) : Option Nat :=
  match vs.map (fun v => v.price_cents) with
  | [] => none
  | x :: xs => some (xs.foldl Nat.min x)

structure ProductLite where
  title : String
  handle : String
  vendor : Option String
  price_from_cents : Option Nat
  variants : List Variant
deriving DecidableEq

/-- `async function fetchProductUltra(handle)` (network/error skeleton):
    `Except.error` models the promise rejecting. -/
def fetchProductUltra (handle : String) (page : FetchOutcome PageData)
    (feed : FetchOutcome FeedData) : Except Unit (Option ProductLite) :=
  match page with
  | .networkError => .error ()
  | .httpError => .ok none
  | .ok pd =>
      let js : Option FeedData :=
        match feed with
        | .ok f => some f
        | _ => none
      let variants := (match js with
        | some f => f.variants
        | none => []).map toVariant
      .ok (some
        { title := pd.title, handle := handle,
          vendor := jsOrNullStr (match js with | some f => f.vendor | none => none),
          price_from_cents := priceFromCents variants,
          variants := variants })

/- ===================== claim C3 ===================== -/

/-- C3 (amended): a non-2xx page response yields null (no product) without
    an exception; a failure of the variant-feed request alone (rejection or
    unparsable body) yields a record with an empty variant list; but a
    network error on the page fetch itself is unguarded and propagates as an
    exception to the caller. -/
theorem fetchProductUltra_error_handling :
    (∀ (h : String) (feed : FetchOutcome FeedData),
      fetchProductUltra h .httpError feed = .ok none) ∧
    (∀ (h : String) (pd : PageData), ∃ p : ProductLite,
      fetchProductUltra h (.ok pd) .networkError = .ok (some p) ∧ p.variants = []) ∧
    (∀ (h : String) (pd : PageData), ∃ p : ProductLite,
      fetchProductUltra h (.ok pd) .httpError = .ok (some p) ∧ p.variants = []) ∧
    (∀ (h : String) (feed : FetchOutcome FeedData),
      fetchProductUltra h .networkError feed = .error ()) :=
  ⟨fun _ _ => rfl, fun _ _ => ⟨_, rfl, rfl⟩, fun _ _ => ⟨_, rfl, rfl⟩, fun _ _ => rfl⟩

/-- C3 counterexample: on a page-fetch network error the function rejects
    (raises) instead of returning null — the claim "network error yields
    null rather than an exception" fails. -/
theorem fetchProductUltra_network_error_raises :
    fetchProductUltra "x" FetchOutcome.networkError (FetchOutcome.ok ⟨none, []⟩)
        = .error () ∧
    fetchProductUltra "x" FetchOutcome.networkError (FetchOutcome.ok ⟨none, []⟩)
        ≠ .ok none := by
  constructor
  · rfl
  · intro hc
    exact Except.noConfusion hc

/- ===================== fuzzy any-word catalog search ===================== -/

/-- Replace each maximal run of characters satisfying `p` by the single
    character `r` (JS `replace(/X+/g, "Y")`); the flag records whether the
    previous character was part of a run. -/
def squeezeRuns (p : Char → Bool) (r : Char) : List Char → Bool → List Char
  | [], _ => []
  | c :: rest, inRun =>
      if p c then
        if inRun then squeezeRuns p r rest true
        else r :: squeezeRuns p r rest true
      else c :: squeezeRuns p r rest false

/-- `const slugify = (s) => ...`: lowercase, delete trademark signs, map
    characters outside `[a-z0-9\s-]` to spaces, collapse whitespace runs to
    one space, trim, turn each space into a hyphen, collapse hyphen runs. -/
def slugify (s : String) : String :=
  let cs := lowerChars s.data
  let cs := cs.filter (fun c => !(c = '™' || c = '®' || c = '©'))
  let cs := cs.map (fun c =>
    if c.isLower || c.isDigit || c.isWhitespace || c = '-' then c else ' ')
  let cs := squeezeRuns Char.isWhitespace ' ' cs false
  let cs := jsTrimList cs
  let cs := cs.map (fun c => if c.isWhitespace then '-' else c)
  let cs := squeezeRuns (fun c => c = '-') '-' cs false
  String.mk cs

mutual

/-- JS `String.split(re)` where `re` matches a maximal nonempty run of
    separator characters: accumulating the current token. -/
def splitRunsTok (p : Char → Bool) : List Char → List Char → List String
  | [], acc => [String.mk acc.reverse]
  | c :: rest, acc =>
      if p c then String.mk acc.reverse :: splitRunsSep p rest
      else splitRunsTok p rest (c :: acc)

/-- Inside a separator run (the preceding token has been emitted); a
    trailing run yields a trailing empty token, as in JS. -/
def splitRunsSep (p : Char → Bool) : List Char → List String
  | [] => [""]
  | c :: rest => if p c then splitRunsSep p rest else splitRunsTok p rest [c]

end

/-- `const STOP_WORDS = new Set([...])`. -/
def STOP_WORDS : List String :=
  ["what", "whats", "what\x27s", "with", "for", "on", "about", "of", "the",
   "and", "&", "size", "sizes", "dimensions", "dimension", "specs", "spec",
   "included", "include", "warranty", "shipping", "returns", "return",
   "lead", "time", "leadtime"]

/-- The query-word extraction of `searchProductsByAnyWord`: lowercase, split
    on runs of characters outside `[a-z0-9+.-]`, trim each token, keep words
    that are nonempty, at least two characters, and not stop words, then
    dedupe keeping first occurrences (`Array.from(new Set(...))`). -/
def queryWords (keyword : String) : List String :=
  dedupFirst
    (((splitRunsTok
          (fun c => !(c.isLower || c.isDigit || c = '+' || c = '.' || c = '-'))
          (jsLower keyword).data []).map jsTrim).filter
      (fun w => !(w == "") && decide (2 ≤ w.length) && !(STOP_WORDS.contains w)))

/-- One raw item of a storefront catalog page (`{handle, title}`). -/
structure RawProduct where
  handle : String
  title : String
deriving DecidableEq, Repr

/-- One scored search result (`{handle, title, score}`). -/
structure ScoredHit where
  handle : String
  title : String
  score : Nat
deriving DecidableEq, Repr

/-- The per-candidate score: how many query words appear in the lowercased
    title, or whose slug appears in the lowercased handle. -/
def scoreOf (words : List String) (title handle : String) : Nat :=
  words.countP (fun w => jsIncludes title w || jsIncludes handle (slugify w))

/-- The per-page candidate loop: push `{handle, title, score}` for handles
    not yet seen whose score is positive. -/
def scanItems (words : List String) :
    List RawProduct → List String → List ScoredHit → List String × List ScoredHit
  | [], seen, acc => (seen, acc)
  | p :: rest, seen, acc =>
      if 0 < scoreOf words (jsLower p.title) (jsLower p.handle)
          ∧ ¬ jsLower p.handle ∈ seen then
        scanItems words rest (jsLower p.handle :: seen)
          (acc ++ [⟨p.handle, p.title, scoreOf words (jsLower p.title) (jsLower p.handle)⟩])
      else scanItems words rest seen acc

/-- The paging loop of `searchProductsByAnyWord`: visit up to `fuel` more
    pages starting at `page`; a non-ok response (`none`), an empty page, or
    a short page (< 250 items) ends the scan. -/
def scanPages (catalog : Nat → Option (List RawProduct)) (words : List String) :
    Nat → Nat → List String → List ScoredHit → List ScoredHit
  | 0, _, _, acc => acc
  | fuel + 1, page, seen, acc =>
      match catalog page with
      | none => acc
      | some items =>
          if items.isEmpty then acc
          else if items.length < 250 then (scanItems words items seen acc).2
          else
            scanPages catalog words fuel (page + 1)
              (scanItems words items seen acc).1 (scanItems words items seen acc).2

/-- The sort comparator `(a, b) => b.score - a.score || a.title.length -
    b.title.length` as the relation "comparator value ≤ 0": descending
    score, ties broken by shorter title. -/
def rankLe (a b : ScoredHit) : Bool :=
  decide (b.score < a.score)
    || (decide (a.score = b.score) && decide (a.title.length ≤ b.title.length))

/-- `async function searchProductsByAnyWord(keyword, maxPages, maxResults)`
    with the catalog pages supplied as an oracle; the stable JS `sort` is
    `mergeSort` with the comparator-≤ relation, and `slice(0, maxResults)`
    is `take`. -/
def searchProductsByAnyWord (catalog : Nat → Option (List RawProduct))
    (keyword : String) (maxPages maxResults : Nat) : List ScoredHit :=
  if (queryWords keyword).isEmpty then []
  else
    ((scanPages catalog (queryWords keyword) maxPages 1 [] []).mergeSort rankLe).take
      maxResults

/- ===================== claim C9 ===================== -/

theorem dedupFirstGo_subset [DecidableEq α] (l : List α) :
    ∀ (seen : List α) (x : α), x ∈ dedupFirstGo seen l → x ∈ l := by
  induction l with
  | nil => intro seen x hx; simp [dedupFirstGo] at hx
  | cons h t ih =>
      intro seen x hx
      by_cases hmem : h ∈ seen
      · simp only [dedupFirstGo, if_pos hmem] at hx
        exact List.mem_cons_of_mem _ (ih seen x hx)
      · simp only [dedupFirstGo, if_neg hmem] at hx
        rcases List.mem_cons.mp hx with rfl | hx'
        · exact List.mem_cons_self _ _
        · exact List.mem_cons_of_mem _ (ih (h :: seen) x hx')

theorem queryWords_props (keyword : String) :
    ∀ w ∈ queryWords keyword, w ≠ "" ∧ 2 ≤ w.length ∧ STOP_WORDS.contains w = false := by
  intro w hw
  have hw2 := dedupFirstGo_subset _ [] w hw
  have hw3 := (List.mem_filter.mp hw2).2
  simp only [Bool.and_eq_true, Bool.not_eq_true', decide_eq_true_eq, beq_eq_false_iff_ne,
    ne_eq] at hw3
  exact ⟨hw3.1.1, hw3.1.2, hw3.2⟩

theorem scanItems_inv (words : List String) (items : List RawProduct) :
    ∀ (seen : List String) (acc : List ScoredHit),
    (∀ x ∈ acc, 0 < x.score ∧ x.score = scoreOf words (jsLower x.title) (jsLower x.handle)) →
    ∀ x ∈ (scanItems words items seen acc).2,
      0 < x.score ∧ x.score = scoreOf words (jsLower x.title) (jsLower x.handle) := by
  induction items with
  | nil => intro seen acc hacc x hx; exact hacc x hx
  | cons p rest ih =>
      intro seen acc hacc x hx
      by_cases hcond : 0 < scoreOf words (jsLower p.title) (jsLower p.handle)
          ∧ ¬ jsLower p.handle ∈ seen
      · simp only [scanItems, if_pos hcond] at hx
        refine ih _ _ ?_ x hx
        intro y hy
        rcases List.mem_append.mp hy with hy | hy
        · exact hacc y hy
        · simp only [List.mem_singleton] at hy
          subst hy
          exact ⟨hcond.1, rfl⟩
      · simp only [scanItems, if_neg hcond] at hx
        exact ih _ _ hacc x hx

theorem scanPages_inv (catalog : Nat → Option (List RawProduct)) (words : List String) :
    ∀ (fuel page : Nat) (seen : List String) (acc : List ScoredHit),
    (∀ x ∈ acc, 0 < x.score ∧ x.score = scoreOf words (jsLower x.title) (jsLower x.handle)) →
    ∀ x ∈ scanPages catalog words fuel page seen acc,
      0 < x.score ∧ x.score = scoreOf words (jsLower x.title) (jsLower x.handle) := by
  intro fuel
  induction fuel with
  | zero =>
      intro page seen acc hacc x hx
      simp only [scanPages] at hx
      exact hacc x hx
  | succ n ih =>
      intro page seen acc hacc x hx
      simp only [scanPages] at hx
      cases hcat : catalog page with
      | none => rw [hcat] at hx; exact hacc x hx
      | some items =>
          rw [hcat] at hx
          dsimp only at hx
          by_cases hempty : items.isEmpty = true
          · rw [if_pos hempty] at hx; exact hacc x hx
          · rw [if_neg hempty] at hx
            by_cases hshort : items.length < 250
            · rw [if_pos hshort] at hx
              exact scanItems_inv words items seen acc hacc x hx
            · rw [if_neg hshort] at hx
              exact ih (page + 1) _ _ (scanItems_inv words items seen acc hacc) x hx

theorem rankLe_trans (a b c : ScoredHit) (hab : rankLe a b = true)
    (hbc : rankLe b c = true) : rankLe a c = true := by
  simp only [rankLe, Bool.or_eq_true, Bool.and_eq_true, decide_eq_true_eq] at hab hbc ⊢
  omega

theorem rankLe_total (a b : ScoredHit) : (rankLe a b || rankLe b a) = true := by
  simp only [rankLe, Bool.or_eq_true, Bool.and_eq_true, decide_eq_true_eq]
  omega

/-- C9: the fuzzy any-word scan uses only query words that are nonempty, at
    least two characters, and not stop words; every returned candidate has a
    positive score equal to the count of query words matching its lowercased
    title or slugged handle; the result is sorted by descending score with
    ties broken by shorter title first, and capped at `maxResults`. -/
theorem searchProductsByAnyWord_ranking (catalog : Nat → Option (List RawProduct))
    (keyword : String) (maxPages maxResults : Nat) :
    (∀ w ∈ queryWords keyword, w ≠ "" ∧ 2 ≤ w.length ∧ STOP_WORDS.contains w = false) ∧
    (searchProductsByAnyWord catalog keyword maxPages maxResults).length ≤ maxResults ∧
    (∀ x ∈ searchProductsByAnyWord catalog keyword maxPages maxResults,
      0 < x.score ∧
        x.score = scoreOf (queryWords keyword) (jsLower x.title) (jsLower x.handle)) ∧
    List.Pairwise (fun a b => rankLe a b = true)
      (searchProductsByAnyWord catalog keyword maxPages maxResults) := by
  refine ⟨queryWords_props keyword, ?_⟩
  by_cases hw : (queryWords keyword).isEmpty = true
  · refine ⟨?_, ?_, ?_⟩ <;> simp [searchProductsByAnyWord, hw]
  · have hR : searchProductsByAnyWord catalog keyword maxPages maxResults
        = ((scanPages catalog (queryWords keyword) maxPages 1 [] []).mergeSort rankLe).take
            maxResults := by
      simp [searchProductsByAnyWord, hw]
    refine ⟨?_, ?_, ?_⟩
    · rw [hR]
      exact List.length_take_le _ _
    · intro x hx
      rw [hR] at hx
      have hx2 := (List.take_sublist _ _).subset hx
      have hx3 := List.mem_mergeSort.mp hx2
      exact scanPages_inv catalog (queryWords keyword) maxPages 1 [] [] (by simp) x hx3
    · rw [hR]
      exact List.Pairwise.sublist (List.take_sublist _ _)
        (List.sorted_mergeSort rankLe_trans rankLe_total _)

/- ===================== bulk ingest controller =====================
   `runBulkIngest` drives single-threaded cooperative async tasks.  Every
   state change of the JS run is one of four atomic events below, so every
   execution maps to a trace of the step relation; safety properties are
   proved over all traces (a superset of the real schedules) and liveness
   as the existence of a completing trace. -/

/-- One entry of `BULK.errors`: `{ handle, error }`. -/
structure ErrEntry where
  handle : String
  error : String
deriving DecidableEq, Repr

/-- The mutable `BULK` job state of `runBulkIngest` plus the local `active`
    counter, represented by the list of in-flight task handles in dispatch
    order (`active = tasks.length`; the cosmetic `BULK.inFlight` set shown
    by the status route is not modelled). -/
structure BulkState where
  total : Nat
  queue : List String
  tasks : List String
  done : Nat
  failed : Nat
  errors : List ErrEntry
  cancelled : Bool
  running : Bool
deriving DecidableEq, Repr

/-- The prologue of `runBulkIngest(handles)`: `total = handles.length`,
    queue filled with a copy of the list, counters reset, running set. -/
def initBulk (handles : List String) : BulkState :=
  { total := handles.length, queue := handles, tasks := [], done := 0,
    failed := 0, errors := [], cancelled := false, running := true }

/-- Scheduler events: `dispatch` is one guarded `next()` body that actually
    dequeues (initial burst or refill in a task's `finally`); `finish i ok
    msg` resolves in-flight task `i` (retry wrapper succeeded, or exhausted
    with error `msg`); `cancel` is `POST /ingest/cancel` setting
    `BULK.cancelled`; `complete` is the monitor loop observing its exit
    condition and marking the job done. -/
inductive BulkEvent where
  | dispatch
  | finish (i : Nat) (ok : Bool) (msg : String)
  | cancel
  | complete
deriving DecidableEq, Repr

/-- One scheduler step (`C` is `INGEST_CONCURRENCY`); `none` when the
    event's guard does not hold in the JS. -/
def stepFn (C : Nat) (s : BulkState) : BulkEvent → Option BulkState
  | .dispatch =>
      match s.queue with
      | [] => none
      | h :: rest =>
          if s.cancelled then none
          else if s.tasks.length < C then
            some { s with queue := rest, tasks := s.tasks ++ [h] }
          else none
  | .finish i ok msg =>
      if hi : i < s.tasks.length then
        some { s with
          tasks := s.tasks.eraseIdx i,
          done := if ok then s.done + 1 else s.done,
          failed := if ok then s.failed else s.failed + 1,
          errors := if ok then s.errors else s.errors ++ [⟨s.tasks[i], msg⟩] }
      else none
  | .cancel => if s.running then some { s with cancelled := true } else none
  | .complete =>
      if s.running ∧ (s.cancelled ∨ (s.total ≤ s.done + s.failed ∧ s.tasks = [])) then
        some { s with running := false }
      else none

/-- Run a trace of events; `none` when some guard fails. -/
def runEvents (C : Nat) : BulkState → List BulkEvent → Option BulkState
  | s, [] => some s
  | s, e :: rest =>
      match stepFn C s e with
      | some s2 => runEvents C s2 rest
      | none => none

/-- Conservation invariant of a bulk run over `handles`: every submitted
    handle is accounted for in exactly one of done/failed/in-flight/queued,
    the error log has one entry per failure, and an uncancelled completed
    job has drained queue and tasks. -/
def BulkInv (handles : List String) (s : BulkState) : Prop :=
  s.done + s.failed + s.tasks.length + s.queue.length = s.total ∧
  s.errors.length = s.failed ∧
  s.total = handles.length ∧
  (s.running = false → s.cancelled = false → s.tasks = [] ∧ s.queue = [])

theorem stepFn_inv (C : Nat) (handles : List String) (s s2 : BulkState) (e : BulkEvent)
    (hinv : BulkInv handles s) (hstep : stepFn C s e = some s2) : BulkInv handles s2 := by
  obtain ⟨tot, q, tk, d, f, er, cx, rx⟩ := s
  obtain ⟨hsum, herr, htot, hfin⟩ := hinv
  simp only at hsum herr htot hfin
  cases e with
  | dispatch =>
      cases hq : q with
      | nil => subst hq; exact absurd hstep (by simp [stepFn])
      | cons h rest =>
          subst hq
          simp only [stepFn] at hstep
          by_cases hc : cx = true
          · rw [if_pos hc] at hstep
            exact absurd hstep (by simp)
          · rw [if_neg hc] at hstep
            by_cases hlt : tk.length < C
            · rw [if_pos hlt] at hstep
              obtain rfl := Option.some.inj hstep
              refine ⟨?_, herr, htot, ?_⟩
              · simp only [List.length_append, List.length_cons, List.length_nil] at hsum ⊢
                omega
              · intro h1 h2
                exact absurd (hfin h1 h2).2 (by simp)
            · rw [if_neg hlt] at hstep
              exact absurd hstep (by simp)
  | finish i ok msg =>
      simp only [stepFn] at hstep
      split at hstep
      case isTrue hi =>
        obtain rfl := Option.some.inj hstep
        have hcnt : (if ok = true then d + 1 else d) + (if ok = true then f else f + 1)
            = d + f + 1 := by
          cases ok <;> simp <;> omega
        have herr2 : (if ok = true then er else er ++ [(⟨tk[i], msg⟩ : ErrEntry)]).length
            = (if ok = true then f else f + 1) := by
          cases ok <;> simp [herr]
        refine ⟨?_, herr2, htot, ?_⟩
        · simp only [List.length_eraseIdx, if_pos hi]
          omega
        · intro h1 h2
          have h3 := (hfin h1 h2).1
          subst h3
          simp at hi
      case isFalse hi => exact absurd hstep (by simp)
  | cancel =>
      simp only [stepFn] at hstep
      by_cases hr : rx = true
      · rw [if_pos hr] at hstep
        obtain rfl := Option.some.inj hstep
        refine ⟨hsum, herr, htot, ?_⟩
        intro _ h2
        exact absurd h2 (by simp)
      · rw [if_neg hr] at hstep
        exact absurd hstep (by simp)
  | complete =>
      simp only [stepFn] at hstep
      split at hstep
      case isTrue hcond =>
        obtain rfl := Option.some.inj hstep
        refine ⟨hsum, herr, htot, ?_⟩
        intro _ h2
        simp only at h2
        rcases hcond.2 with hcx | ⟨hle, htasks⟩
        · rw [h2] at hcx
          exact absurd hcx (by simp)
        · subst htasks
          simp only [List.length_nil] at hsum
          exact ⟨rfl, List.length_eq_zero.mp (by omega : q.length = 0)⟩
      case isFalse hcond => exact absurd hstep (by simp)

theorem runEvents_inv (C : Nat) (handles : List String) (evs : List BulkEvent) :
    ∀ (s s2 : BulkState), BulkInv handles s → runEvents C s evs = some s2 →
      BulkInv handles s2 := by
  induction evs with
  | nil =>
      intro s s2 hinv h
      obtain rfl := Option.some.inj h
      exact hinv
  | cons e rest ih =>
      intro s s2 hinv h
      simp only [runEvents] at h
      cases hstep : stepFn C s e with
      | none => rw [hstep] at h; exact absurd h (by simp)
      | some s1 =>
          rw [hstep] at h
          exact ih s1 s2 (stepFn_inv C handles s s1 e hinv hstep) h

theorem initBulk_inv (handles : List String) : BulkInv handles (initBulk handles) := by
  refine ⟨by simp [initBulk], by simp [initBulk], rfl, ?_⟩
  intro h1
  simp [initBulk] at h1

/-- `GET /ingest/all?handles=...` parsing:
    `String(req.query.handles).split(",").map(s => s.trim()).filter(Boolean)`
    — no deduplication (unlike the full-catalog `listAllProductHandles`,
    which wraps its result in `Array.from(new Set(...))`). -/
def splitCommaGo : List Char → List Char → List String
  | [], acc => [String.mk acc.reverse]
  | c :: rest, acc =>
      if c = ',' then String.mk acc.reverse :: splitCommaGo rest []
      else splitCommaGo rest (c :: acc)

def parseHandlesParam (s : String) : List String :=
  ((splitCommaGo s.data []).map jsTrim).filter (fun h => !(h == ""))

/- ===================== claim C1 ===================== -/

/-- C1 (amended): for every submitted handle list, when the job reaches
    Completed without a cancellation request, `done + failed = total`
    exactly, and `total` equals the LENGTH of the submitted list — duplicate
    handles in an explicit list are counted separately, not deduplicated. -/
theorem bulk_accounting (C : Nat) (handles : List String) (evs : List BulkEvent)
    (s : BulkState) (hrun : runEvents C (initBulk handles) evs = some s)
    (hdone : s.running = false) (hcanc : s.cancelled = false) :
    s.done + s.failed = s.total ∧ s.total = handles.length := by
  obtain ⟨hsum, herr, htot, hfin⟩ :=
    runEvents_inv C handles evs (initBulk handles) s (initBulk_inv handles) hrun
  obtain ⟨ht, hq⟩ := hfin hdone hcanc
  refine ⟨?_, htot⟩
  rw [ht, hq] at hsum
  simpa using hsum

/-- C1 witness: a two-handle run with one success and one failure. -/
theorem bulk_accounting_witness :
    (runEvents 2 (initBulk ["a", "b"])
        [BulkEvent.dispatch, BulkEvent.dispatch, BulkEvent.finish 0 true "",
          BulkEvent.finish 0 false "boom", BulkEvent.complete]
      = some ⟨2, [], [], 1, 1, [⟨"b", "boom"⟩], false, false⟩) ∧
    ((⟨2, [], [], 1, 1, [⟨"b", "boom"⟩], false, false⟩ : BulkState).done
        + (⟨2, [], [], 1, 1, [⟨"b", "boom"⟩], false, false⟩ : BulkState).failed
        = (⟨2, [], [], 1, 1, [⟨"b", "boom"⟩], false, false⟩ : BulkState).total ∧
      (⟨2, [], [], 1, 1, [⟨"b", "boom"⟩], false, false⟩ : BulkState).total
        = (["a", "b"] : List String).length) :=
  ⟨by decide,
    bulk_accounting 2 ["a", "b"]
      [BulkEvent.dispatch, BulkEvent.dispatch, BulkEvent.finish 0 true "",
        BulkEvent.finish 0 false "boom", BulkEvent.complete]
      ⟨2, [], [], 1, 1, [⟨"b", "boom"⟩], false, false⟩ (by decide) rfl rfl⟩

/-- C1 counterexample: submitting the explicit list `handles=a,a` gives
    `total = 2` (the list length) while the distinct-handle count is 1, so
    "total equals the count of distinct handles submitted" is false. -/
theorem bulk_total_counts_duplicates :
    parseHandlesParam "a,a" = ["a", "a"] ∧
    (runEvents 2 (initBulk (parseHandlesParam "a,a"))
        [BulkEvent.dispatch, BulkEvent.dispatch, BulkEvent.finish 0 true "",
          BulkEvent.finish 0 true "", BulkEvent.complete]
      = some ⟨2, [], [], 2, 0, [], false, false⟩) ∧
    (dedupFirst (parseHandlesParam "a,a")).length = 1 ∧
    ¬ ((⟨2, [], [], 2, 0, [], false, false⟩ : BulkState).total
        = (dedupFirst (parseHandlesParam "a,a")).length) := by
  refine ⟨by decide, by decide, by decide, by decide⟩

/- ===================== claim C2 ===================== -/

theorem runEvents_append (C : Nat) (l1 l2 : List BulkEvent) :
    ∀ s : BulkState, runEvents C s (l1 ++ l2)
      = (runEvents C s l1).bind (fun s1 => runEvents C s1 l2) := by
  induction l1 with
  | nil => intro s; simp [runEvents]
  | cons e rest ih =>
      intro s
      simp only [List.cons_append, runEvents]
      cases hstep : stepFn C s e with
      | none => simp
      | some s1 => simp [ih s1]

/-- After cancellation, the cancelled flag is never cleared within the run
    and the queue is frozen: no event dequeues (dispatch is guard-disabled). -/
theorem runEvents_cancelled_frozen (C : Nat) (evs : List BulkEvent) :
    ∀ (s s2 : BulkState), s.cancelled = true → runEvents C s evs = some s2 →
      s2.cancelled = true ∧ s2.queue = s.queue := by
  induction evs with
  | nil =>
      intro s s2 hc h
      obtain rfl := Option.some.inj h
      exact ⟨hc, rfl⟩
  | cons e rest ih =>
      intro s s2 hc h
      simp only [runEvents] at h
      cases hstep : stepFn C s e with
      | none => rw [hstep] at h; exact absurd h (by simp)
      | some s1 =>
          rw [hstep] at h
          have hprop : s1.cancelled = true ∧ s1.queue = s.queue := by
            cases e with
            | dispatch =>
                cases hq : s.queue with
                | nil => simp [stepFn, hq] at hstep
                | cons hd tl =>
                    simp only [stepFn, hq] at hstep
                    rw [if_pos hc] at hstep
                    exact absurd hstep (by simp)
            | finish i ok msg =>
                simp only [stepFn] at hstep
                split at hstep
                case isTrue hi =>
                  obtain rfl := Option.some.inj hstep
                  exact ⟨hc, rfl⟩
                case isFalse hi => exact absurd hstep (by simp)
            | cancel =>
                simp only [stepFn] at hstep
                split at hstep
                case isTrue hr =>
                  obtain rfl := Option.some.inj hstep
                  exact ⟨rfl, rfl⟩
                case isFalse hr => exact absurd hstep (by simp)
            | complete =>
                simp only [stepFn] at hstep
                split at hstep
                case isTrue hcond =>
                  obtain rfl := Option.some.inj hstep
                  exact ⟨hc, rfl⟩
                case isFalse hcond => exact absurd hstep (by simp)
          obtain ⟨h1, h2⟩ := ih s1 s2 hprop.1 h
          exact ⟨h1, h2.trans hprop.2⟩

/-- Resolving every in-flight task (successfully) one by one. -/
theorem runFinishAll (C : Nat) : ∀ (n : Nat) (s : BulkState), s.tasks.length = n →
    runEvents C s (List.replicate n (BulkEvent.finish 0 true ""))
      = some { s with tasks := [], done := s.done + n } := by
  intro n
  induction n with
  | zero =>
      intro s hlen
      obtain ⟨tot, q, tk, d, f, er, cx, rx⟩ := s
      simp only at hlen
      have ht : tk = [] := List.length_eq_zero.mp hlen
      subst ht
      simp [runEvents, List.replicate]
  | succ n ih =>
      intro s hlen
      obtain ⟨tot, q, tk, d, f, er, cx, rx⟩ := s
      simp only at hlen
      cases htk : tk with
      | nil => rw [htk] at hlen; simp at hlen
      | cons a t =>
          subst htk
          have hstep : stepFn C ⟨tot, q, a :: t, d, f, er, cx, rx⟩
              (BulkEvent.finish 0 true "") = some ⟨tot, q, t, d + 1, f, er, cx, rx⟩ := by
            simp [stepFn]
          simp only [List.replicate, runEvents, hstep]
          have h2 := ih ⟨tot, q, t, d + 1, f, er, cx, rx⟩ (by simpa using hlen)
          rw [h2]
          have harith : d + 1 + n = d + (n + 1) := by omega
          simp [harith]

/-- C2: in any reachable state where cancellation has been requested, (a) no
    continuation ever dispatches from the queue (the queue is frozen and the
    flag sticks), and (b) while the monitor still runs, there is a
    continuation in which every in-flight task resolves and updates a
    counter and the job reaches Completed, with `done + failed ≤ total`. -/
theorem bulk_cooperative_cancellation (C : Nat) (handles : List String)
    (evs : List BulkEvent) (s : BulkState)
    (hrun : runEvents C (initBulk handles) evs = some s)
    (hc : s.cancelled = true) :
    (∀ (evs2 : List BulkEvent) (s2 : BulkState), runEvents C s evs2 = some s2 →
      s2.cancelled = true ∧ s2.queue = s.queue) ∧
    (s.running = true → ∃ s2 : BulkState,
      runEvents C s (List.replicate s.tasks.length (BulkEvent.finish 0 true "")
          ++ [BulkEvent.complete]) = some s2 ∧
      s2.running = false ∧ s2.tasks = [] ∧
      s2.done + s2.failed = s.done + s.failed + s.tasks.length ∧
      s2.done + s2.failed ≤ s2.total ∧ s2.total = s.total) := by
  constructor
  · intro evs2 s2 h2
    exact runEvents_cancelled_frozen C evs2 s s2 hc h2
  · intro hr
    have hmid := runFinishAll C s.tasks.length s rfl
    have hcomp : stepFn C
          ({ s with tasks := [], done := s.done + s.tasks.length } : BulkState)
          BulkEvent.complete
        = some ({ s with tasks := [], done := s.done + s.tasks.length, running := false } : BulkState) := by
      simp only [stepFn]
      rw [if_pos ⟨hr, Or.inl hc⟩]
    have hfull : runEvents C s
        (List.replicate s.tasks.length (BulkEvent.finish 0 true "")
          ++ [BulkEvent.complete])
        = some ({ s with tasks := [], done := s.done + s.tasks.length, running := false } : BulkState) := by
      rw [runEvents_append, hmid]
      simp [runEvents, hcomp]
    have hinv0 : BulkInv handles s :=
      runEvents_inv C handles evs (initBulk handles) s (initBulk_inv handles) hrun
    have hinv2 := runEvents_inv C handles _ s _ hinv0 hfull
    refine ⟨_, hfull, rfl, rfl, ?_, ?_, rfl⟩
    · show s.done + s.tasks.length + s.failed = s.done + s.failed + s.tasks.length
      omega
    · obtain ⟨hsum2, _, _, _⟩ := hinv2
      simp only [List.length_nil] at hsum2
      show s.done + s.tasks.length + s.failed ≤ s.total
      omega

/-- C2 witness: cancel a three-handle job after two dispatches; handle c is
    still queued and a, b are in flight. -/
theorem bulk_cooperative_cancellation_witness :
    (runEvents 2 (initBulk ["a", "b", "c"])
        [BulkEvent.dispatch, BulkEvent.dispatch, BulkEvent.cancel]
      = some ⟨3, ["c"], ["a", "b"], 0, 0, [], true, true⟩) ∧
    ((∀ (evs2 : List BulkEvent) (s2 : BulkState),
        runEvents 2 (⟨3, ["c"], ["a", "b"], 0, 0, [], true, true⟩ : BulkState) evs2
            = some s2 →
        s2.cancelled = true ∧
          s2.queue = (⟨3, ["c"], ["a", "b"], 0, 0, [], true, true⟩ : BulkState).queue) ∧
      ((⟨3, ["c"], ["a", "b"], 0, 0, [], true, true⟩ : BulkState).running = true →
        ∃ s2 : BulkState,
        runEvents 2 (⟨3, ["c"], ["a", "b"], 0, 0, [], true, true⟩ : BulkState)
            (List.replicate
                (⟨3, ["c"], ["a", "b"], 0, 0, [], true, true⟩ : BulkState).tasks.length
                (BulkEvent.finish 0 true "") ++ [BulkEvent.complete]) = some s2 ∧
        s2.running = false ∧ s2.tasks = [] ∧
        s2.done + s2.failed
          = (⟨3, ["c"], ["a", "b"], 0, 0, [], true, true⟩ : BulkState).done
            + (⟨3, ["c"], ["a", "b"], 0, 0, [], true, true⟩ : BulkState).failed
            + (⟨3, ["c"], ["a", "b"], 0, 0, [], true, true⟩ : BulkState).tasks.length ∧
        s2.done + s2.failed ≤ s2.total ∧
        s2.total = (⟨3, ["c"], ["a", "b"], 0, 0, [], true, true⟩ : BulkState).total)) :=
  ⟨by decide,
    bulk_cooperative_cancellation 2 ["a", "b", "c"]
      [BulkEvent.dispatch, BulkEvent.dispatch, BulkEvent.cancel]
      ⟨3, ["c"], ["a", "b"], 0, 0, [], true, true⟩ (by decide) rfl⟩

/- ===================== claim C4 ===================== -/

/-- The completion payload of `runBulkIngest`:
    `{ total, done, failed, errors: BULK.errors.slice(0, 20) }`
    (the wall-clock `duration_ms` is not modelled). -/
structure BulkReport where
  total : Nat
  done : Nat
  failed : Nat
  errors : List ErrEntry
deriving DecidableEq, Repr

def completionReport (s : BulkState) : BulkReport :=
  { total := s.total, done := s.done, failed := s.failed, errors := s.errors.take 20 }

/-- `errors_preview: BULK.errors.slice(-10)` of `GET /ingest/status`. -/
def statusErrorsPreview (s : BulkState) : List ErrEntry :=
  s.errors.drop (s.errors.length - 10)

/-- C4 (amended): the error log is unbounded — every reachable state holds
    exactly one `{handle, error}` entry per failed task, with no 20-entry
    trim; the completion report samples the FIRST (oldest) `min 20` entries
    via `slice(0, 20)`, and the status route previews the last 10. -/
theorem bulk_error_log_unbounded (C : Nat) (handles : List String)
    (evs : List BulkEvent) (s : BulkState)
    (hrun : runEvents C (initBulk handles) evs = some s) :
    s.errors.length = s.failed ∧
    (completionReport s).errors = s.errors.take 20 ∧
    (completionReport s).errors.length = min 20 s.failed ∧
    statusErrorsPreview s = s.errors.drop (s.errors.length - 10) := by
  obtain ⟨_, herr, _, _⟩ :=
    runEvents_inv C handles evs (initBulk handles) s (initBulk_inv handles) hrun
  refine ⟨herr, rfl, ?_, rfl⟩
  simp [completionReport, List.length_take, herr]

/-- C4 witness: a one-handle run whose single task fails. -/
theorem bulk_error_log_unbounded_witness :
    (runEvents 1 (initBulk ["a"])
        [BulkEvent.dispatch, BulkEvent.finish 0 false "x", BulkEvent.complete]
      = some ⟨1, [], [], 0, 1, [⟨"a", "x"⟩], false, false⟩) ∧
    ((⟨1, [], [], 0, 1, [⟨"a", "x"⟩], false, false⟩ : BulkState).errors.length
        = (⟨1, [], [], 0, 1, [⟨"a", "x"⟩], false, false⟩ : BulkState).failed ∧
      (completionReport ⟨1, [], [], 0, 1, [⟨"a", "x"⟩], false, false⟩).errors
        = (⟨1, [], [], 0, 1, [⟨"a", "x"⟩], false, false⟩ : BulkState).errors.take 20 ∧
      (completionReport ⟨1, [], [], 0, 1, [⟨"a", "x"⟩], false, false⟩).errors.length
        = min 20 (⟨1, [], [], 0, 1, [⟨"a", "x"⟩], false, false⟩ : BulkState).failed ∧
      statusErrorsPreview ⟨1, [], [], 0, 1, [⟨"a", "x"⟩], false, false⟩
        = (⟨1, [], [], 0, 1, [⟨"a", "x"⟩], false, false⟩ : BulkState).errors.drop
            ((⟨1, [], [], 0, 1, [⟨"a", "x"⟩], false, false⟩ : BulkState).errors.length
              - 10)) :=
  ⟨by decide,
    bulk_error_log_unbounded 1 ["a"]
      [BulkEvent.dispatch, BulkEvent.finish 0 false "x", BulkEvent.complete]
      ⟨1, [], [], 0, 1, [⟨"a", "x"⟩], false, false⟩ (by decide)⟩

/-- Trace with 21 sequential task failures (concurrency 1). -/
def cexErrEvents : List BulkEvent :=
  ((List.range 21).map
      (fun i => [BulkEvent.dispatch, BulkEvent.finish 0 false (Nat.repr i)])).flatten
    ++ [BulkEvent.complete]

/-- The completed state of that trace. -/
def cexErrState : BulkState :=
  { total := 21, queue := [], tasks := [], done := 0, failed := 21,
    errors := (List.range 21).map (fun i => ⟨"h", Nat.repr i⟩),
    cancelled := false, running := false }

/-- C4 counterexample: after 21 failures the log holds 21 entries (> 20 — no
    most-recent-20 bound), and the completion sample `slice(0, 20)` omits
    the most recent error — so the sample is the oldest 20, not the most
    recent 20. -/
theorem bulk_error_log_holds_21_entries :
    runEvents 1 (initBulk (List.replicate 21 "h")) cexErrEvents = some cexErrState ∧
    cexErrState.running = false ∧
    cexErrState.errors.length = 21 ∧
    ¬ (cexErrState.errors.length ≤ 20) ∧
    (⟨"h", "20"⟩ : ErrEntry) ∈ cexErrState.errors ∧
    ¬ ((⟨"h", "20"⟩ : ErrEntry) ∈ (completionReport cexErrState).errors) := by
  refine ⟨by decide, rfl, by decide, by decide, by decide, by decide⟩

end Chatbot
